import Mathlib

/-!
Verification development for the vk_teams_bot exchange-rate service.

The Python sources (`vk-teams-bot-exchange-rate.py`, `vk-teams-bot-exchange-rate-2.py`,
`test2.py`) are shallowly embedded here:

* calendar dates are absolute day numbers (`ℤ`, days since 1970-01-01), with
  `mkDate` / `civilFromDays` implementing the standard civil-calendar conversion
  (the same Gregorian arithmetic Python's `datetime`/`calendar` perform);
* exchange rates are `ℚ`; Python's `round(x, 4)` on floats is modelled as
  rational rounding to 4 decimal places (`round4`, half-up at ties — no input
  in this development sits at a tie);
* the stateful parts (the `rate_cache` dict, HTTP fetch attempts, message
  sends, the `last_failed_message.txt` retry file) become explicit state
  passing over a `RState` / `SvcState` record; the HTTP transports are
  capability parameters in `Env` (`fetchLive`, `fetchArchive`, `sendOk`);
* fallible operations return `Option`.

`RState.log` records every calendar day `get_rate` is invoked on (an
inspection trace used to state the bounded-lookback properties); it mirrors
the call sequence of the source, it is not extra behaviour.
-/

namespace VkTeamsBot

/-- Configured minimum supported year (`MIN_YEAR = 2025` in the sources). -/
def MIN_YEAR : ℤ := 2025

/-- Rounding to 4 decimal places: model of Python's `round(x, 4)`.
`roundHalfUp q` is the integer nearest to `q` (half rounds up). -/
def roundHalfUp (q : ℚ) : ℤ := ⌊q + 1/2⌋

/-- Model of `round(x, 4)` from the sources: scale by `10^4`, round, unscale. -/
def round4 (q : ℚ) : ℚ := (roundHalfUp (q * 10000) : ℚ) / 10000

/-- Leap-year test, as in Python's `calendar.isleap`. -/
def isLeap (y : ℤ) : Bool := (y % 4 == 0 && y % 100 != 0) || y % 400 == 0

/-- Number of days in a month, as returned by `calendar.monthrange(y, m)[1]`.
Returns 0 on an invalid month number (Python would raise instead). -/
def daysInMonth (y m : ℤ) : ℕ :=
  if m = 2 then (if isLeap y then 29 else 28)
  else if m = 4 ∨ m = 6 ∨ m = 9 ∨ m = 11 then 30
  else if 1 ≤ m ∧ m ≤ 12 then 31
  else 0

/-- Absolute day number (days since 1970-01-01) of the civil date `(y, m, d)`.
Standard `days_from_civil` Gregorian conversion; this is what comparing and
subtracting Python `datetime` values computes with. -/
def mkDate (y m d : ℤ) : ℤ :=
  let yy := if m ≤ 2 then y - 1 else y
  let era := Int.fdiv yy 400
  let yoe := yy - era * 400
  let mp := if m ≤ 2 then m + 9 else m - 3
  let doy := Int.fdiv (153 * mp + 2) 5 + d - 1
  let doe := yoe * 365 + Int.fdiv yoe 4 - Int.fdiv yoe 100 + doy
  era * 146097 + doe - 719468

/-- Inverse civil-calendar conversion: absolute day number to `(year, month, day)`. -/
def civilFromDays (rd : ℤ) : ℤ × ℤ × ℤ :=
  let z := rd + 719468
  let era := Int.fdiv z 146097
  let doe := z - era * 146097
  let yoe := Int.fdiv (doe - Int.fdiv doe 1460 + Int.fdiv doe 36524 - Int.fdiv doe 146096) 365
  let y := yoe + era * 400
  let doy := doe - (365 * yoe + Int.fdiv yoe 4 - Int.fdiv yoe 100)
  let mp := Int.fdiv (5 * doy + 2) 153
  let d := doy - Int.fdiv (153 * mp + 2) 5 + 1
  let m := if mp < 10 then mp + 3 else mp - 9
  (if m ≤ 2 then y + 1 else y, m, d)

/-- Year component of an absolute day (Python `date.year`). -/
def yearOf (rd : ℤ) : ℤ := (civilFromDays rd).1

/-- Python `date.weekday()`: Monday = 0, …, Sunday = 6.
Day 0 (1970-01-01) was a Thursday (3). -/
def weekday (rd : ℤ) : ℤ := (rd + 3) % 7

/-- External capabilities and the clock, as seen by `CurrencyService`:
`today` is `datetime.now().date()`, `fetchLive` the payload of `DAILY_URL`
(`none` on any transport failure or non-200 response), `fetchArchive` the
payload of `ARCHIVE_URL` for a given day, and `sendOk n` the outcome of the
`n`-th `send_to_chat` HTTP call of the run. -/
structure Env where
  today : ℤ
  fetchLive : Option ℚ
  fetchArchive : ℤ → Option ℚ
  sendOk : ℕ → Bool

/-- Mutable resolver state: the `rate_cache` dict (association list, newest
first), a count of HTTP fetch attempts, the trace of days `get_rate` was
invoked on, and `last_known_rate`. -/
structure RState where
  cache : List (ℤ × ℚ)
  fetchCount : ℕ
  log : List ℤ
  lastKnown : Option ℚ

/-- The empty starting state of a fresh `CurrencyService`. -/
def initR : RState := ⟨[], 0, [], none⟩

/-- Lookup in the modelled `rate_cache`. -/
def lookupCache : List (ℤ × ℚ) → ℤ → Option ℚ
  | [], _ => none
  | (k, v) :: rest, d => if k = d then some v else lookupCache rest d

/-- `CurrencyService.get_rate`: consult the cache; for today fetch the live
source; otherwise refuse years below `MIN_YEAR`, else fetch the archive
source; on success round to 4 decimals and cache the value. -/
def get_rate (env : Env) (s : RState) (date : ℤ) : Option ℚ × RState :=
  let s0 : RState := { s with log := date :: s.log }
  match lookupCache s0.cache date with
  | some r => (some r, s0)
  | none =>
    if date = env.today then
      match env.fetchLive with
      | some v =>
        let r := round4 v
        (some r, { s0 with cache := (date, r) :: s0.cache,
                           fetchCount := s0.fetchCount + 1, lastKnown := some r })
      | none => (none, { s0 with fetchCount := s0.fetchCount + 1 })
    else if yearOf date < MIN_YEAR then (none, s0)
    else
      match env.fetchArchive date with
      | some v =>
        let r := round4 v
        (some r, { s0 with cache := (date, r) :: s0.cache,
                           fetchCount := s0.fetchCount + 1, lastKnown := some r })
      | none => (none, { s0 with fetchCount := s0.fetchCount + 1 })

/-- The value `get_rate` computes for a day, as a pure function of the
environment (what resolution yields when the cache has no say). -/
def pureResolve (env : Env) (date : ℤ) : Option ℚ :=
  if date = env.today then env.fetchLive.map round4
  else if yearOf date < MIN_YEAR then none
  else (env.fetchArchive date).map round4

/-- Cache consistency: every cached value is the one resolution computes.
Holds for the empty cache and is preserved by `get_rate`. -/
def CacheConsistent (env : Env) (s : RState) : Prop :=
  ∀ d v, lookupCache s.cache d = some v → pureResolve env d = some v

theorem initR_consistent (env : Env) : CacheConsistent env initR := by
  intro d v h
  simp [initR, lookupCache] at h

theorem lookupCache_cons (k : ℤ) (v : ℚ) (c : List (ℤ × ℚ)) (d : ℤ) :
    lookupCache ((k, v) :: c) d = if k = d then some v else lookupCache c d := rfl

/-- Under cache consistency, `get_rate` returns exactly `pureResolve`. -/
theorem get_rate_val (env : Env) (s : RState) (date : ℤ)
    (hcc : CacheConsistent env s) :
    (get_rate env s date).1 = pureResolve env date := by
  unfold get_rate
  cases hc : lookupCache s.cache date with
  | some r =>
    have h := hcc date r hc
    simp [hc, h]
  | none =>
    unfold pureResolve
    by_cases ht : date = env.today
    · subst ht
      cases env.fetchLive <;> simp [hc]
    · by_cases hy : yearOf date < MIN_YEAR
      · simp [hc, ht, hy]
      · cases env.fetchArchive date <;> simp [hc, ht, hy]

/-- `get_rate` preserves cache consistency. -/
theorem get_rate_consistent (env : Env) (s : RState) (date : ℤ)
    (hcc : CacheConsistent env s) :
    CacheConsistent env (get_rate env s date).2 := by
  intro d w h
  cases hc : lookupCache s.cache date with
  | some r =>
    simp only [get_rate, hc] at h
    exact hcc d w h
  | none =>
    simp only [get_rate, hc] at h
    by_cases ht : date = env.today
    · cases hl : env.fetchLive with
      | some v =>
        rw [if_pos ht, hl] at h
        simp only [lookupCache_cons] at h
        by_cases hd : date = d
        · subst hd
          simp at h
          simp [pureResolve, ht, hl, ← h]
        · simp [hd] at h
          exact hcc d w h
      | none =>
        rw [if_pos ht, hl] at h
        exact hcc d w h
    · by_cases hy : yearOf date < MIN_YEAR
      · rw [if_neg ht, if_pos hy] at h
        exact hcc d w h
      · cases ha : env.fetchArchive date with
        | some v =>
          rw [if_neg ht, if_neg hy, ha] at h
          simp only [lookupCache_cons] at h
          by_cases hd : date = d
          · subst hd
            simp at h
            simp [pureResolve, ht, hy, ha, ← h]
          · simp [hd] at h
            exact hcc d w h
        | none =>
          rw [if_neg ht, if_neg hy, ha] at h
          exact hcc d w h

/-- `get_rate` logs exactly the day it was invoked on. -/
theorem get_rate_log (env : Env) (s : RState) (date : ℤ) :
    (get_rate env s date).2.log = date :: s.log := by
  unfold get_rate
  cases hc : lookupCache s.cache date with
  | some r => simp [hc]
  | none =>
    by_cases ht : date = env.today
    · subst ht
      cases env.fetchLive <;> simp [hc]
    · by_cases hy : yearOf date < MIN_YEAR
      · simp [hc, ht, hy]
      · cases env.fetchArchive date <;> simp [hc, ht, hy]

/-- A cached value is never overwritten by any later `get_rate` call. -/
theorem get_rate_cache_mono (env : Env) (s : RState) (x y : ℤ) (w : ℚ)
    (h : lookupCache s.cache x = some w) :
    lookupCache (get_rate env s y).2.cache x = some w := by
  unfold get_rate
  cases hc : lookupCache s.cache y with
  | some r => simpa [hc] using h
  | none =>
    have hxy : y ≠ x := by
      intro he; rw [he] at hc; rw [hc] at h; exact Option.noConfusion h
    by_cases ht : y = env.today
    · subst ht
      cases env.fetchLive <;> simp [hc, lookupCache_cons, hxy, h]
    · by_cases hy : yearOf y < MIN_YEAR
      · simp [hc, ht, hy, h]
      · cases env.fetchArchive y <;> simp [hc, ht, hy, lookupCache_cons, hxy, h]

/-- The lookback window `from_date - 1, …, from_date - n` that the backward
searches walk (`for delta in range(1, n+1): date - timedelta(days=delta)`). -/
def window (date : ℤ) (n : ℕ) : List ℤ := (List.range' 1 n).map (fun i : ℕ => date - (i : ℤ))

/-- The loop body shared by all backward searches of the sources: consult
`get_rate` on each listed day in order, stopping at the first resolved rate. -/
def searchDates (env : Env) : RState → List ℤ → Option ℚ × RState
  | s, [] => (none, s)
  | s, d :: rest =>
    let r := get_rate env s d
    match r.1 with
    | some v => (some v, r.2)
    | none => searchDates env r.2 rest

/-- The spec's `FallbackSearch.previous_available` with an explicit lookback
bound; the sources instantiate it with fixed bounds. -/
def previous_available (env : Env) (s : RState) (date : ℤ) (n : ℕ) : Option ℚ × RState :=
  searchDates env s (window date n)

/-- `CurrencyService.get_previous_workday_rate`: `for delta in range(1, 8)`,
i.e. `previous_available` with a 7-day window. -/
def get_previous_workday_rate (env : Env) (s : RState) (date : ℤ) : Option ℚ × RState :=
  previous_available env s date 7

/-- The window of `test2.py`'s `get_last_available_rate`: `range(0, 30)`,
which starts at the date itself. -/
def window0 (date : ℤ) (n : ℕ) : List ℤ := (List.range' 0 n).map (fun i : ℕ => date - (i : ℤ))

/-- `CurrencyService.get_last_available_rate` from `test2.py`: a 30-day
window that includes the starting date. -/
def get_last_available_rate_t2 (env : Env) (s : RState) (date : ℤ) : Option ℚ × RState :=
  searchDates env s (window0 date 30)

/-- `CurrencyService.get_last_available_rate` from the second source file:
try the date itself; on a Sunday additionally try the preceding Saturday;
then fall back to the 7-day backward window. -/
def get_last_available_rate (env : Env) (s : RState) (date : ℤ) : Option ℚ × RState :=
  let r1 := get_rate env s date
  match r1.1 with
  | some v => (some v, r1.2)
  | none =>
    if weekday date = 6 then
      let r2 := get_rate env r1.2 (date - 1)
      match r2.1 with
      | some v => (some v, r2.2)
      | none => searchDates env r2.2 (window date 7)
    else searchDates env r1.2 (window date 7)

/-- `searchDates` returns the first day of the list that resolves (the value
`List.findSome?` computes over `pureResolve`), and preserves cache
consistency. -/
theorem searchDates_spec (env : Env) :
    ∀ (L : List ℤ) (s : RState), CacheConsistent env s →
      (searchDates env s L).1 = L.findSome? (pureResolve env) ∧
      CacheConsistent env (searchDates env s L).2 := by
  intro L
  induction L with
  | nil =>
    intro s hcc
    exact ⟨rfl, hcc⟩
  | cons d rest ih =>
    intro s hcc
    have hv := get_rate_val env s d hcc
    have hc2 := get_rate_consistent env s d hcc
    constructor
    · simp only [searchDates]
      rw [hv]
      cases hP : pureResolve env d with
      | some v => simp [List.findSome?_cons, hP]
      | none => simp [List.findSome?_cons, hP, (ih _ hc2).1]
    · simp only [searchDates]
      rw [hv]
      cases hP : pureResolve env d with
      | some v => simpa using hc2
      | none => exact (ih _ hc2).2

/-- The days `searchDates` inspects: the log grows by a sublist-like trace of
the window — at most `L.length` days, all from `L`, without repetition when
`L` has none. -/
theorem searchDates_log (env : Env) :
    ∀ (L : List ℤ) (s : RState),
      ∃ C : List ℤ, (searchDates env s L).2.log = C ++ s.log ∧
        C.length ≤ L.length ∧ (∀ x ∈ C, x ∈ L) ∧ (L.Nodup → C.Nodup) := by
  intro L
  induction L with
  | nil =>
    intro s
    exact ⟨[], rfl, by simp, by simp, fun _ => List.nodup_nil⟩
  | cons d rest ih =>
    intro s
    have hlog := get_rate_log env s d
    simp only [searchDates]
    cases hP : (get_rate env s d).1 with
    | some v =>
      refine ⟨[d], ?_, by simp, by simp, fun _ => List.nodup_singleton d⟩
      simpa using hlog
    | none =>
      obtain ⟨C, hC, hlen, hmem, hnd⟩ := ih (get_rate env s d).2
      refine ⟨C ++ [d], ?_, ?_, ?_, ?_⟩
      · rw [hC, hlog]
        simp
      · simpa using Nat.add_le_add_right hlen 1
      · intro x hx
        rcases List.mem_append.1 hx with hx | hx
        · exact List.mem_cons_of_mem d (hmem x hx)
        · simp at hx
          simp [hx]
      · intro hnod
        rcases List.nodup_cons.1 hnod with ⟨hd, hrest⟩
        refine List.Nodup.append (hnd hrest) (List.nodup_singleton d) ?_
        intro a ha ha'
        simp at ha'
        subst ha'
        exact hd (hmem a ha)

/-- If a none-resolving prefix precedes a resolving day, `findSome?` returns
that day's value. -/
theorem findSome?_append_hit (g : ℤ → Option ℚ) (x : ℤ) (v : ℚ) :
    ∀ (P Q : List ℤ), (∀ d ∈ P, g d = none) → g x = some v →
      List.findSome? g (P ++ x :: Q) = some v := by
  intro P
  induction P with
  | nil =>
    intro Q _ hx
    simp [List.findSome?_cons, hx]
  | cons p P ih =>
    intro Q hP hx
    have hp : g p = none := hP p (List.mem_cons_self p P)
    simp only [List.cons_append, List.findSome?_cons, hp]
    exact ih Q (fun d hd => hP d (List.mem_cons_of_mem p hd)) hx

/-- Quantities of the form `k / 10000` are fixed points of `round4`. -/
theorem round4_int_div (k : ℤ) : round4 ((k : ℚ) / 10000) = (k : ℚ) / 10000 := by
  unfold round4 roundHalfUp
  have h : ((k : ℚ) / 10000) * 10000 = (k : ℚ) := by
    field_simp
  rw [h]
  have h2 : ⌊(k : ℚ) + 1 / 2⌋ = k := by
    rw [add_comm]
    rw [Int.floor_add_int]
    norm_num
  rw [h2]

/-- `round4` is idempotent. -/
theorem round4_idem (q : ℚ) : round4 (round4 q) = round4 q := by
  unfold round4
  exact round4_int_div (roundHalfUp (q * 10000))

/-- Any value delivered by resolution is a fixed point of `round4` (the
sources round every fetched value before caching or returning it). -/
theorem pureResolve_stable (env : Env) (d : ℤ) (v : ℚ)
    (h : pureResolve env d = some v) : round4 v = v := by
  unfold pureResolve at h
  by_cases ht : d = env.today
  · rw [if_pos ht] at h
    cases hl : env.fetchLive with
    | some w =>
      rw [hl] at h
      simp at h
      rw [← h]
      exact round4_idem w
    | none => rw [hl] at h; exact absurd h (by simp)
  · rw [if_neg ht] at h
    by_cases hy : yearOf d < MIN_YEAR
    · rw [if_pos hy] at h
      exact absurd h (by simp)
    · rw [if_neg hy] at h
      cases ha : env.fetchArchive d with
      | some w =>
        rw [ha] at h
        simp at h
        rw [← h]
        exact round4_idem w
      | none => rw [ha] at h; exact absurd h (by simp)

/-- The difference of two `round4` fixed points is again a fixed point. -/
theorem round4_sub_stable (a b : ℚ) (ha : round4 a = a) (hb : round4 b = b) :
    round4 (a - b) = a - b := by
  obtain ⟨ka, ha'⟩ : ∃ k : ℤ, ((k : ℚ)) / 10000 = a := ⟨roundHalfUp (a * 10000), ha⟩
  obtain ⟨kb, hb'⟩ : ∃ k : ℤ, ((k : ℚ)) / 10000 = b := ⟨roundHalfUp (b * 10000), hb⟩
  rw [← ha', ← hb']
  have h : (ka : ℚ) / 10000 - (kb : ℚ) / 10000 = ((ka - kb : ℤ) : ℚ) / 10000 := by
    push_cast
    ring
  rw [h]
  exact round4_int_div _

/-- `round4` is monotone. -/
theorem round4_mono (a b : ℚ) (h : a ≤ b) : round4 a ≤ round4 b := by
  unfold round4 roundHalfUp
  have h1 : a * 10000 + 1 / 2 ≤ b * 10000 + 1 / 2 := by
    have : a * 10000 ≤ b * 10000 := by
      apply mul_le_mul_of_nonneg_right h
      norm_num
    linarith
  have h2 : ⌊a * 10000 + 1 / 2⌋ ≤ ⌊b * 10000 + 1 / 2⌋ := Int.floor_le_floor h1
  have h3 : ((⌊a * 10000 + 1 / 2⌋ : ℤ) : ℚ) ≤ ((⌊b * 10000 + 1 / 2⌋ : ℤ) : ℚ) := by
    exact_mod_cast h2
  apply div_le_div_of_nonneg_right h3
  norm_num

/-- `round4 0 = 0`. -/
theorem round4_zero : round4 0 = 0 := by
  have h := round4_int_div 0
  simpa using h

/-- Trend classification values returned by `calculate_trend`: the source
returns the strings "📈 Рост", "📉 Падение", "⏸️ Стабильность", "нет данных";
modelled as an enumeration. -/
inductive Trend
  | rising
  | falling
  | flat
  | noData
deriving DecidableEq, Repr

/-- `CurrencyService.calculate_trend`: compare last element with first. -/
def calculate_trend (rates : List ℚ) : Trend :=
  match rates with
  | [] => .noData
  | a :: rest =>
    let lastv := (a :: rest).getLast (List.cons_ne_nil a rest)
    if a < lastv then .rising
    else if lastv < a then .falling
    else .flat

/-- The statistics dict returned by `calculate_monthly_stats` (first file). -/
structure MonthlyStats where
  last_rate : ℚ
  avg_rate : ℚ
  avg_workdays_rate : Option ℚ
  min_rate : ℚ
  max_rate : ℚ
  range : ℚ
  days_count : ℕ
  workdays_count : ℕ
  trend : Trend
deriving DecidableEq, Repr

/-- Day numbers `1, …, n` of a month, as walked by
`for day in range(1, last_day + 1)`. -/
def dayList (n : ℕ) : List ℤ := (List.range' 1 n).map (fun i : ℕ => (i : ℤ))

/-- The month-scanning loop of `calculate_monthly_stats`: resolve each day;
a resolved rate goes to both series and becomes the carry; an unresolved day
appends the carry (if any) to the all-days series only. Returns
(all-days series, workday series, final resolver state). -/
def monthLoop (env : Env) (y m : ℤ) : RState → List ℤ → Option ℚ → List ℚ × List ℚ × RState
  | s, [], _ => ([], [], s)
  | s, d :: rest, carry =>
    let r := get_rate env s (mkDate y m d)
    match r.1 with
    | some v =>
      let t := monthLoop env y m r.2 rest (some v)
      (v :: t.1, v :: t.2.1, t.2.2)
    | none =>
      match carry with
      | some c =>
        let t := monthLoop env y m r.2 rest carry
        (c :: t.1, t.2.1, t.2.2)
      | none => monthLoop env y m r.2 rest carry

/-- The previous month of `(y, m)` (`month > 1` branch of the sources). -/
def prevMonthOf (y m : ℤ) : ℤ × ℤ := if 1 < m then (y, m - 1) else (y - 1, 12)

/-- The last day of the previous month: the carry seed consulted by
`calculate_monthly_stats` before scanning the month. -/
def seedDate (y m : ℤ) : ℤ :=
  let p := prevMonthOf y m
  mkDate p.1 p.2 (daysInMonth p.1 p.2)

/-- The average of the resolved-only series (`avg_workdays_rate`), `None`
when that series is empty. -/
def avgWorkdays (works : List ℚ) : Option ℚ :=
  match works with
  | [] => none
  | w :: ws => some (round4 ((w :: ws).sum / ((w :: ws).length : ℚ)))

/-- The statistics dict assembled by `calculate_monthly_stats` from the
all-days and workday series; `None` when the all-days series is empty
(`if not all_rates: return None`). -/
def statsFrom (alls works : List ℚ) : Option MonthlyStats :=
  match alls with
  | [] => none
  | a :: rest =>
    let mn := rest.foldl min a
    let mx := rest.foldl max a
    some {
      last_rate := (a :: rest).getLast (List.cons_ne_nil a rest)
      avg_rate := round4 ((a :: rest).sum / ((a :: rest).length : ℚ))
      avg_workdays_rate := avgWorkdays works
      min_rate := mn
      max_rate := mx
      range := round4 (mx - mn)
      days_count := (a :: rest).length
      workdays_count := works.length
      trend := calculate_trend (a :: rest) }

/-- `CurrencyService.calculate_monthly_stats` (first source file): reject
years below `MIN_YEAR`; seed the carry from the previous month's last day;
scan the month; `None` when the all-days series is empty, else the stats. -/
def calculate_monthly_stats (env : Env) (s : RState) (y m : ℤ) :
    Option MonthlyStats × RState :=
  if y < MIN_YEAR then (none, s)
  else
    let seedR := get_rate env s (seedDate y m)
    let t := monthLoop env y m seedR.2 (dayList (daysInMonth y m)) seedR.1
    (statsFrom t.1 t.2.1, t.2.2)

/-- Pure specification of the all-days series built by `monthLoop`. -/
def gatherAll (g : ℤ → Option ℚ) : List ℤ → Option ℚ → List ℚ
  | [], _ => []
  | d :: rest, carry =>
    match g d with
    | some v => v :: gatherAll g rest (some v)
    | none =>
      match carry with
      | some c => c :: gatherAll g rest carry
      | none => gatherAll g rest carry

/-- Hand-written unfolding equation for `gatherAll` on a cons cell (the
auto-generated equations are kernel-hostile). -/
theorem gatherAll_cons (g : ℤ → Option ℚ) (d : ℤ) (rest : List ℤ) (carry : Option ℚ) :
    gatherAll g (d :: rest) carry =
      match g d with
      | some v => v :: gatherAll g rest (some v)
      | none =>
        match carry with
        | some c => c :: gatherAll g rest carry
        | none => gatherAll g rest carry := rfl

/-- `monthLoop` computes `gatherAll`/`filterMap` of the pure resolution
function, and preserves cache consistency. -/
theorem monthLoop_spec (env : Env) (y m : ℤ) :
    ∀ (L : List ℤ) (s : RState) (carry : Option ℚ), CacheConsistent env s →
      (monthLoop env y m s L carry).1 =
        gatherAll (fun d => pureResolve env (mkDate y m d)) L carry ∧
      (monthLoop env y m s L carry).2.1 =
        L.filterMap (fun d => pureResolve env (mkDate y m d)) ∧
      CacheConsistent env (monthLoop env y m s L carry).2.2 := by
  intro L
  induction L with
  | nil =>
    intro s carry hcc
    exact ⟨rfl, rfl, hcc⟩
  | cons d rest ih =>
    intro s carry hcc
    have hv := get_rate_val env s (mkDate y m d) hcc
    have hc2 := get_rate_consistent env s (mkDate y m d) hcc
    simp only [monthLoop, gatherAll, List.filterMap_cons]
    rw [hv]
    cases hP : pureResolve env (mkDate y m d) with
    | some v =>
      obtain ⟨h1, h2, h3⟩ := ih (get_rate env s (mkDate y m d)).2 (some v) hc2
      exact ⟨by simp [h1], by simp [h2], h3⟩
    | none =>
      cases carry with
      | some c =>
        obtain ⟨h1, h2, h3⟩ := ih (get_rate env s (mkDate y m d)).2 (some c) hc2
        exact ⟨by simp [h1], by simp [h2], h3⟩
      | none =>
        obtain ⟨h1, h2, h3⟩ := ih (get_rate env s (mkDate y m d)).2 none hc2
        exact ⟨h1, h2, h3⟩

/-- When no listed day resolves, the carry value fills every slot of the
all-days series. -/
theorem gatherAll_none_replicate (g : ℤ → Option ℚ) :
    ∀ (L : List ℤ) (c : ℚ), (∀ d ∈ L, g d = none) →
      gatherAll g L (some c) = List.replicate L.length c := by
  intro L
  induction L with
  | nil => intro c _; rfl
  | cons d rest ih =>
    intro c h
    have hd : g d = none := h d (List.mem_cons_self d rest)
    simp only [gatherAll, hd, List.length_cons, List.replicate_succ]
    rw [ih c (fun x hx => h x (List.mem_cons_of_mem d hx))]

/-- With no carry and no resolving day the all-days series stays empty. -/
theorem gatherAll_none_nil (g : ℤ → Option ℚ) :
    ∀ (L : List ℤ), (∀ d ∈ L, g d = none) → gatherAll g L none = [] := by
  intro L
  induction L with
  | nil => intro _; rfl
  | cons d rest ih =>
    intro h
    have hd : g d = none := h d (List.mem_cons_self d rest)
    simp only [gatherAll, hd]
    exact ih (fun x hx => h x (List.mem_cons_of_mem d hx))

/-- The workday series is never longer than the all-days series. -/
theorem filterMap_length_le_gatherAll (g : ℤ → Option ℚ) :
    ∀ (L : List ℤ) (carry : Option ℚ),
      (L.filterMap g).length ≤ (gatherAll g L carry).length := by
  intro L
  induction L with
  | nil => intro carry; simp [gatherAll]
  | cons d rest ih =>
    intro carry
    rw [List.filterMap_cons]
    cases hd : g d with
    | some v =>
      simp only [gatherAll, hd, List.length_cons]
      exact Nat.succ_le_succ (ih (some v))
    | none =>
      cases carry with
      | some c =>
        simp only [gatherAll, hd, List.length_cons]
        exact Nat.le_succ_of_le (ih (some c))
      | none =>
        simp only [gatherAll, hd]
        exact ih none

/-- Every element of the all-days series is a `round4` fixed point, provided
the resolution values and the carry are. -/
theorem gatherAll_stable (g : ℤ → Option ℚ)
    (hg : ∀ d v, g d = some v → round4 v = v) :
    ∀ (L : List ℤ) (carry : Option ℚ), (∀ c, carry = some c → round4 c = c) →
      ∀ x ∈ gatherAll g L carry, round4 x = x := by
  intro L
  induction L with
  | nil => intro carry _ x hx; simp [gatherAll] at hx
  | cons d rest ih =>
    intro carry hcarry x hx
    cases hd : g d with
    | some v =>
      simp only [gatherAll, hd] at hx
      rcases List.mem_cons.1 hx with hx | hx
      · subst hx; exact hg d x hd
      · refine ih (some v) ?_ x hx
        intro c hc
        injection hc with h
        subst h
        exact hg d v hd
    | none =>
      cases hcar : carry with
      | some c =>
        subst hcar
        simp only [gatherAll, hd] at hx
        rcases List.mem_cons.1 hx with hx | hx
        · subst hx; exact hcarry x rfl
        · exact ih (some c) hcarry x hx
      | none =>
        subst hcar
        simp only [gatherAll, hd] at hx
        exact ih none (by intro c hc; cases hc) x hx

/-- `foldl min` starting at `a` never exceeds `a`. -/
theorem foldl_min_le_init (l : List ℚ) : ∀ a : ℚ, l.foldl min a ≤ a := by
  induction l with
  | nil => intro a; simp
  | cons b l ih =>
    intro a
    calc List.foldl min (min a b) l ≤ min a b := ih (min a b)
      _ ≤ a := min_le_left a b

/-- `foldl min` is a lower bound for every list element. -/
theorem foldl_min_le_mem (l : List ℚ) : ∀ (a x : ℚ), x ∈ l → l.foldl min a ≤ x := by
  induction l with
  | nil => intro a x hx; simp at hx
  | cons b l ih =>
    intro a x hx
    rcases List.mem_cons.1 hx with hx | hx
    · subst hx
      calc List.foldl min (min a x) l ≤ min a x := foldl_min_le_init l (min a x)
        _ ≤ x := min_le_right a x
    · exact ih (min a b) x hx

/-- `foldl min` is the start value or one of the elements. -/
theorem foldl_min_choice (l : List ℚ) : ∀ a : ℚ, l.foldl min a = a ∨ l.foldl min a ∈ l := by
  induction l with
  | nil => intro a; left; rfl
  | cons b l ih =>
    intro a
    rcases ih (min a b) with h | h
    · rcases min_choice a b with hm | hm
      · left; simp only [List.foldl_cons]; rw [h, hm]
      · right; simp only [List.foldl_cons]; rw [h, hm]; exact List.mem_cons_self b l
    · right
      exact List.mem_cons_of_mem b h

/-- `foldl max` starting at `a` is at least `a`. -/
theorem le_foldl_max_init (l : List ℚ) : ∀ a : ℚ, a ≤ l.foldl max a := by
  induction l with
  | nil => intro a; simp
  | cons b l ih =>
    intro a
    calc a ≤ max a b := le_max_left a b
      _ ≤ List.foldl max (max a b) l := ih (max a b)

/-- `foldl max` is an upper bound for every list element. -/
theorem mem_le_foldl_max (l : List ℚ) : ∀ (a x : ℚ), x ∈ l → x ≤ l.foldl max a := by
  induction l with
  | nil => intro a x hx; simp at hx
  | cons b l ih =>
    intro a x hx
    rcases List.mem_cons.1 hx with hx | hx
    · subst hx
      calc x ≤ max a x := le_max_right a x
        _ ≤ List.foldl max (max a x) l := le_foldl_max_init l (max a x)
    · exact ih (max a b) x hx

/-- `foldl max` is the start value or one of the elements. -/
theorem foldl_max_choice (l : List ℚ) : ∀ a : ℚ, l.foldl max a = a ∨ l.foldl max a ∈ l := by
  induction l with
  | nil => intro a; left; rfl
  | cons b l ih =>
    intro a
    rcases ih (max a b) with h | h
    · rcases max_choice a b with hm | hm
      · left; simp only [List.foldl_cons]; rw [h, hm]
      · right; simp only [List.foldl_cons]; rw [h, hm]; exact List.mem_cons_self b l
    · right
      exact List.mem_cons_of_mem b h

/-- Lower bound on a sum: `length • bound ≤ sum` when every element is at
least the bound. -/
theorem card_mul_le_sum (l : List ℚ) (c : ℚ) (h : ∀ x ∈ l, c ≤ x) :
    (l.length : ℚ) * c ≤ l.sum := by
  induction l with
  | nil => simp
  | cons b l ih =>
    have hb : c ≤ b := h b (List.mem_cons_self b l)
    have hl : (l.length : ℚ) * c ≤ l.sum := ih (fun x hx => h x (List.mem_cons_of_mem b hx))
    simp only [List.sum_cons, List.length_cons]
    push_cast
    linarith

/-- Upper bound on a sum: `sum ≤ length • bound` when every element is at
most the bound. -/
theorem sum_le_card_mul (l : List ℚ) (c : ℚ) (h : ∀ x ∈ l, x ≤ c) :
    l.sum ≤ (l.length : ℚ) * c := by
  induction l with
  | nil => simp
  | cons b l ih =>
    have hb : b ≤ c := h b (List.mem_cons_self b l)
    have hl : l.sum ≤ (l.length : ℚ) * c := ih (fun x hx => h x (List.mem_cons_of_mem b hx))
    simp only [List.sum_cons, List.length_cons]
    push_cast
    linarith

/-- Direction marker produced by `format_change`: the source returns the
strings "🔄 Нет данных", "📈 +…", "📉 …", "❎ Без изменений". -/
inductive ChangeMark
  | noData
  | rising
  | falling
  | unchanged
deriving DecidableEq, Repr

/-- `CurrencyService.format_change`, reduced to its direction classification. -/
def change_mark : Option ℚ → ChangeMark
  | none => .noData
  | some c => if 0 < c then .rising else if c < 0 then .falling else .unchanged

/-- `CurrencyService.format_change_percent`, reduced to the percentage value
it prints; `none` models the empty string returned when either input is
missing or the reference rate is zero. -/
def change_percent : Option ℚ → Option ℚ → Option ℚ
  | some c, some p => if p = 0 then none else some (c / p * 100)
  | _, _ => none

/-- The jump test of `send_daily_report`: `abs(change) >= 1.0`. -/
def jump_flag (c : ℚ) : Bool := decide (1 ≤ |c|)

/-- The spec's `ChangeResult`, assembled from the change computation of
`send_daily_report` (`change = current_rate - prev_rate`) and the formatting
helpers. -/
structure ChangeResult where
  delta : ℚ
  percent : Option ℚ
  mark : ChangeMark
  jump : Bool
deriving DecidableEq, Repr

/-- The spec's `ChangeCalculator.change`, as composed in
`send_daily_report`. -/
def change (current reference : ℚ) : ChangeResult :=
  let d := current - reference
  { delta := d
    percent := change_percent (some d) (some reference)
    mark := change_mark (some d)
    jump := jump_flag d }

/-- `RetryStore.save`: writing `last_failed_message.txt` overwrites any
pending record (single slot, last failure wins). -/
def save_failed_message {α : Type} (text : α) (_slot : Option α) : Option α := some text

/-- `CurrencyService.retry_failed_message` (second source file): nothing
pending returns false; otherwise send the stored text — delete the record
and return true on success, keep it and return false on failure. -/
def retry_failed_message {α : Type} (send : α → Bool) (slot : Option α) : Bool × Option α :=
  match slot with
  | none => (false, none)
  | some msg => if send msg then (true, none) else (false, some msg)

/-- The distinct report texts `send_daily_report` / `send_monthly_reports`
compose (payloads carry the numbers that parameterize each text). -/
inductive Msg
  | daily (rate chg : ℚ)
  | monthEnd (rate chg : ℚ)
  | dataAbsent
  | sendFailAlert
  | bidease (rate : ℚ)
  | avgReport (avg : ℚ) (days : ℕ) (lastRate : ℚ)
  | analytics (mn mx rg : ℚ) (t : Trend)
deriving DecidableEq, Repr

/-- Service state: the resolver state, the transcript of messages handed to
`send_to_chat` (in order), and the `last_failed_message.txt` retry slot. -/
structure SvcState where
  rs : RState
  sent : List Msg
  slot : Option Msg

/-- `CurrencyService.send_to_chat`: the HTTP outcome of the n-th send of the
run is `env.sendOk n`; the message is appended to the transcript. -/
def send_to_chat (env : Env) (st : SvcState) (msg : Msg) : Bool × SvcState :=
  (env.sendOk st.sent.length, { st with sent := st.sent ++ [msg] })

/-- On a cache hit `get_rate` returns the cached value without fetching. -/
theorem get_rate_hit (env : Env) (s : RState) (d : ℤ) (v : ℚ)
    (h : lookupCache s.cache d = some v) :
    (get_rate env s d).1 = some v ∧ (get_rate env s d).2.fetchCount = s.fetchCount := by
  simp [get_rate, h]

/-- A successful first resolution fetches exactly once and caches the
returned value under the resolved day. -/
theorem get_rate_store (env : Env) (s : RState) (d : ℤ) (v : ℚ)
    (h0 : lookupCache s.cache d = none) (h1 : (get_rate env s d).1 = some v) :
    lookupCache (get_rate env s d).2.cache d = some v ∧
    (get_rate env s d).2.fetchCount = s.fetchCount + 1 := by
  simp only [get_rate, h0] at h1 ⊢
  by_cases ht : d = env.today
  · rw [if_pos ht] at h1 ⊢
    cases hl : env.fetchLive with
    | some w =>
      rw [hl] at h1
      simp at h1
      simp [lookupCache_cons, h1]
    | none =>
      rw [hl] at h1
      simp at h1
  · rw [if_neg ht] at h1 ⊢
    by_cases hy : yearOf d < MIN_YEAR
    · rw [if_pos hy] at h1
      exact absurd h1 (by simp)
    · rw [if_neg hy] at h1 ⊢
      cases ha : env.fetchArchive d with
      | some w =>
        rw [ha] at h1
        simp at h1
        simp [lookupCache_cons, h1]
      | none =>
        rw [ha] at h1
        simp at h1

/-- Environment used by several witnesses: today is 2025-07-15 with a live
rate, the archive serves 2024-12-31, 2025-03-07 and 2025-06-28 only. -/
def envA : Env :=
  { today := mkDate 2025 7 15
    fetchLive := some 80
    fetchArchive := fun d =>
      if d = mkDate 2025 3 7 then some 42
      else if d = mkDate 2025 6 28 then some 85
      else if d = mkDate 2024 12 31 then some 77
      else none
    sendOk := fun _ => true }

/-- C3: for every date whose year is below `MIN_YEAR`, `get_rate` returns
Absent and performs no fetch (the fetch counter is unchanged). The clock
hypothesis `MIN_YEAR ≤ yearOf env.today` records that the service runs at or
after `MIN_YEAR` (the live-source branch ignores the year bound, but it is
only taken for the current day). -/
theorem resolve_before_min_year_absent (env : Env) (s : RState) (d : ℤ)
    (hcc : CacheConsistent env s) (hy : yearOf d < MIN_YEAR)
    (htoday : MIN_YEAR ≤ yearOf env.today) :
    (get_rate env s d).1 = none ∧ (get_rate env s d).2.fetchCount = s.fetchCount := by
  have hne : d ≠ env.today := by
    intro he
    rw [he] at hy
    omega
  have hcache : lookupCache s.cache d = none := by
    cases hc : lookupCache s.cache d with
    | none => rfl
    | some v =>
      have hp := hcc d v hc
      unfold pureResolve at hp
      rw [if_neg hne, if_pos hy] at hp
      exact absurd hp (by simp)
  constructor
  · rw [get_rate_val env s d hcc]
    unfold pureResolve
    rw [if_neg hne, if_pos hy]
  · simp only [get_rate, hcache, if_neg hne, if_pos hy]

/-- C3 witness: 2024-12-31 is before `MIN_YEAR`; from the fresh state the
resolver reports Absent without touching the fetch counter. -/
theorem resolve_before_min_year_absent_witness :
    CacheConsistent envA initR ∧ yearOf (mkDate 2024 12 31) < MIN_YEAR ∧
    MIN_YEAR ≤ yearOf envA.today ∧
    (get_rate envA initR (mkDate 2024 12 31)).1 = none ∧
    (get_rate envA initR (mkDate 2024 12 31)).2.fetchCount = initR.fetchCount :=
  ⟨initR_consistent envA, by decide, by decide,
    (resolve_before_min_year_absent envA initR (mkDate 2024 12 31)
      (initR_consistent envA) (by decide) (by decide)).1,
    (resolve_before_min_year_absent envA initR (mkDate 2024 12 31)
      (initR_consistent envA) (by decide) (by decide)).2⟩

/-- C4: first-resolution-wins memoization. If a day not yet cached resolves
to `v`, the fetch counter advances exactly once, resolving the same day
again returns the identical value without any further fetch, and no
`get_rate` call ever overwrites an existing cache entry. -/
theorem cache_memoization (env : Env) (s : RState) (d : ℤ) (v : ℚ)
    (h0 : lookupCache s.cache d = none)
    (h1 : (get_rate env s d).1 = some v) :
    (get_rate env s d).2.fetchCount = s.fetchCount + 1 ∧
    (get_rate env (get_rate env s d).2 d).1 = some v ∧
    (get_rate env (get_rate env s d).2 d).2.fetchCount = (get_rate env s d).2.fetchCount ∧
    ∀ (e : Env) (t : RState) (x y : ℤ) (w : ℚ),
      lookupCache t.cache x = some w → lookupCache (get_rate e t y).2.cache x = some w := by
  obtain ⟨hstore, hcount⟩ := get_rate_store env s d v h0 h1
  obtain ⟨hval2, hcount2⟩ := get_rate_hit env (get_rate env s d).2 d v hstore
  exact ⟨hcount, hval2, hcount2, fun e t x y w h => get_rate_cache_mono e t x y w h⟩

/-- C4 witness: resolving 2025-03-07 (archived rate 42) from the fresh state
fetches once; resolving it again returns 42 with no further fetch. -/
theorem cache_memoization_witness :
    lookupCache initR.cache (mkDate 2025 3 7) = none ∧
    (get_rate envA initR (mkDate 2025 3 7)).1 = some 42 ∧
    (get_rate envA initR (mkDate 2025 3 7)).2.fetchCount = initR.fetchCount + 1 ∧
    (get_rate envA (get_rate envA initR (mkDate 2025 3 7)).2 (mkDate 2025 3 7)).1 = some 42 :=
  ⟨rfl, by with_unfolding_all rfl,
    (cache_memoization envA initR (mkDate 2025 3 7) 42 rfl
      (by with_unfolding_all rfl)).1,
    (cache_memoization envA initR (mkDate 2025 3 7) 42 rfl
      (by with_unfolding_all rfl)).2.1⟩

/-- C6: Sunday exception of `get_last_available_rate` (second source file).
A Sunday that does not itself resolve but whose preceding Saturday resolves
to `sr` yields `sr`, and only the Sunday and the Saturday are inspected —
the 7-day fallback window is not consumed. -/
theorem sunday_exception (env : Env) (s : RState) (date : ℤ) (sr : ℚ)
    (hcc : CacheConsistent env s) (hsun : weekday date = 6)
    (h0 : pureResolve env date = none)
    (h1 : pureResolve env (date - 1) = some sr) :
    (get_last_available_rate env s date).1 = some sr ∧
    (get_last_available_rate env s date).2.log = (date - 1) :: date :: s.log := by
  have hv1 := get_rate_val env s date hcc
  have hc1 := get_rate_consistent env s date hcc
  have hlog1 := get_rate_log env s date
  rw [h0] at hv1
  have hv2 := get_rate_val env (get_rate env s date).2 (date - 1) hc1
  have hlog2 := get_rate_log env (get_rate env s date).2 (date - 1)
  rw [h1] at hv2
  constructor
  · simp only [get_last_available_rate]
    rw [hv1, if_pos hsun, hv2]
  · simp only [get_last_available_rate]
    rw [hv1, if_pos hsun, hv2]
    simp only [hlog2, hlog1]

/-- C6 witness: 2025-06-29 is a Sunday with no archived rate; 2025-06-28 is
archived at 85; the search returns 85 after inspecting exactly those two
days. -/
theorem sunday_exception_witness :
    CacheConsistent envA initR ∧ weekday (mkDate 2025 6 29) = 6 ∧
    pureResolve envA (mkDate 2025 6 29) = none ∧
    pureResolve envA (mkDate 2025 6 29 - 1) = some 85 ∧
    (get_last_available_rate envA initR (mkDate 2025 6 29)).1 = some 85 ∧
    (get_last_available_rate envA initR (mkDate 2025 6 29)).2.log =
      (mkDate 2025 6 29 - 1) :: mkDate 2025 6 29 :: initR.log :=
  ⟨initR_consistent envA, by decide, by with_unfolding_all rfl,
    by with_unfolding_all rfl,
    (sunday_exception envA initR (mkDate 2025 6 29) 85 (initR_consistent envA)
      (by decide) (by with_unfolding_all rfl) (by with_unfolding_all rfl)).1,
    (sunday_exception envA initR (mkDate 2025 6 29) 85 (initR_consistent envA)
      (by decide) (by with_unfolding_all rfl) (by with_unfolding_all rfl)).2⟩

/-- C7: the change computation. For present inputs the delta is
`current - reference`; the percentage is `delta / reference * 100`, omitted
exactly when the reference is zero; the jump flag holds exactly when
`|delta| ≥ 1`; `change(100.50, 99.00)` gives delta `1.50`, percent
`50/33 ≈ 1.515`, a rising mark and the jump flag; `change(100, 100)` gives
delta 0, the unchanged mark and no jump. -/
theorem change_calculator_spec (current reference : ℚ) :
    (change current reference).delta = current - reference ∧
    (change current reference).percent =
      (if reference = 0 then none else some ((current - reference) / reference * 100)) ∧
    ((change current reference).jump = true ↔ 1 ≤ |current - reference|) ∧
    change (201/2) 99 = { delta := 3/2, percent := some (50/33), mark := .rising, jump := true } ∧
    |(50 : ℚ)/33 - 1515/1000| < 1/1000 ∧
    change 100 100 = { delta := 0, percent := some 0, mark := .unchanged, jump := false } := by
  refine ⟨rfl, rfl, ?_, ?_, by rw [abs_lt]; constructor <;> norm_num, ?_⟩
  · simp [change, jump_flag]
  · have h1 : (201 : ℚ)/2 - 99 = 3/2 := by norm_num
    have h2 : ((201 : ℚ)/2 - 99) / 99 * 100 = 50/33 := by norm_num
    have h3 : |(3 : ℚ)/2| = 3/2 := abs_of_nonneg (by norm_num)
    simp only [change, change_percent, change_mark, jump_flag, h1, h2]
    norm_num [h3]
  · simp [change, change_percent, change_mark, jump_flag]

/-- C8: RetryStore lifecycle. With nothing pending, `load_and_retry` is a
no-op returning false; with a pending record it invokes the send function on
the stored text, deleting the record and returning true on success, keeping
it and returning false on failure; after `save "X"` a failed retry keeps the
record, a succeeding retry then returns true and clears it, and a further
retry finds nothing pending. -/
theorem retry_store_spec (α : Type) (send : α → Bool) (slot : Option String) :
    retry_failed_message send (none : Option α) = (false, none) ∧
    (∀ x : α, retry_failed_message send (some x) =
      (if send x then (true, none) else (false, some x))) ∧
    retry_failed_message (fun _ => false) (save_failed_message "X" slot) = (false, some "X") ∧
    retry_failed_message (fun _ => true)
      (retry_failed_message (fun _ => false) (save_failed_message "X" slot)).2 = (true, none) ∧
    retry_failed_message (fun _ => true)
      (retry_failed_message (fun _ => true)
        (retry_failed_message (fun _ => false) (save_failed_message "X" slot)).2).2 =
      (false, none) := by
  refine ⟨rfl, ?_, rfl, rfl, rfl⟩
  intro x
  by_cases h : send x = true
  · simp [retry_failed_message, h]
  · simp at h
    simp [retry_failed_message, h]

theorem window_length (date : ℤ) (n : ℕ) : (window date n).length = n := by
  rw [window, List.length_map, List.length_range']

theorem window_nodup (date : ℤ) (n : ℕ) : (window date n).Nodup := by
  rw [window]
  refine List.Nodup.map ?_ (List.nodup_range' 1 n)
  intro i j h
  have h' : date - (i : ℤ) = date - (j : ℤ) := h
  omega

theorem window_mem (date : ℤ) (n : ℕ) (x : ℤ) (h : x ∈ window date n) :
    ∃ i : ℕ, 1 ≤ i ∧ i ≤ n ∧ x = date - (i : ℤ) := by
  unfold window at h
  rcases List.mem_map.1 h with ⟨i, hi, rfl⟩
  rcases List.mem_range'_1.1 hi with ⟨h1, h2⟩
  exact ⟨i, h1, by omega, rfl⟩

/-- C5: bounded fallback search. `previous_available` inspects at most `n`
distinct calendar days, all of them from the `n`-day window before the start
date; it returns Absent when the whole window resolves to nothing, and the
first (closest) resolving day's rate otherwise. The fixed 7-day
`get_previous_workday_rate` of the sources is the `n = 7` instance, and
`test2.py`'s 30-day `get_last_available_rate` inspects at most 30 days. -/
theorem bounded_fallback_search (env : Env) (s : RState) (date : ℤ) (n : ℕ)
    (hcc : CacheConsistent env s) :
    (∃ C : List ℤ, (previous_available env s date n).2.log = C ++ s.log ∧
      C.length ≤ n ∧ C.Nodup ∧
      ∀ x ∈ C, ∃ i : ℕ, 1 ≤ i ∧ i ≤ n ∧ x = date - (i : ℤ)) ∧
    ((∀ i : ℕ, 1 ≤ i → i ≤ n → pureResolve env (date - (i : ℤ)) = none) →
      (previous_available env s date n).1 = none) ∧
    (∀ (i : ℕ) (r : ℚ), 1 ≤ i → i ≤ n →
      pureResolve env (date - (i : ℤ)) = some r →
      (∀ j : ℕ, 1 ≤ j → j < i → pureResolve env (date - (j : ℤ)) = none) →
      (previous_available env s date n).1 = some r) ∧
    get_previous_workday_rate env s date = previous_available env s date 7 ∧
    (∃ C : List ℤ, (get_last_available_rate_t2 env s date).2.log = C ++ s.log ∧
      C.length ≤ 30) := by
  refine ⟨?_, ?_, ?_, rfl, ?_⟩
  · obtain ⟨C, hC, hlen, hmem, hnd⟩ := searchDates_log env (window date n) s
    refine ⟨C, hC, ?_, hnd (window_nodup date n), ?_⟩
    · calc C.length ≤ (window date n).length := hlen
        _ = n := window_length date n
    · intro x hx
      exact window_mem date n x (hmem x hx)
  · intro h
    unfold previous_available
    rw [(searchDates_spec env (window date n) s hcc).1]
    rw [List.findSome?_eq_none_iff]
    intro x hx
    rcases window_mem date n x hx with ⟨i, h1, h2, rfl⟩
    exact h i h1 h2
  · intro i r h1 h2 hres hprev
    unfold previous_available
    rw [(searchDates_spec env (window date n) s hcc).1]
    have hsplit : window date n =
        ((List.range' 1 (i - 1)).map (fun j : ℕ => date - (j : ℤ))) ++
          (date - (i : ℤ)) :: ((List.range' (i + 1) (n - i)).map (fun j : ℕ => date - (j : ℤ))) := by
      unfold window
      have ha : List.range' 1 n = List.range' 1 (i - 1) ++ List.range' i (n - i + 1) := by
        have hb := List.range'_append_1 1 (i - 1) (n - i + 1)
        rw [show 1 + (i - 1) = i from by omega,
          show n - i + 1 + (i - 1) = n from by omega] at hb
        exact hb.symm
      have hc : List.range' i (n - i + 1) = i :: List.range' (i + 1) (n - i) := by
        rw [show n - i + 1 = (n - i) + 1 from by omega]
        exact List.range'_succ i (n - i) 1
      rw [ha, hc, List.map_append, List.map_cons]
    rw [hsplit]
    apply findSome?_append_hit _ _ _ _ _ _ hres
    intro d hd
    rcases List.mem_map.1 hd with ⟨j, hj, rfl⟩
    rcases List.mem_range'_1.1 hj with ⟨hj1, hj2⟩
    exact hprev j hj1 (by omega)
  · obtain ⟨C, hC, hlen, _, _⟩ := searchDates_log env (window0 date 30) s
    refine ⟨C, hC, ?_⟩
    calc C.length ≤ (window0 date 30).length := hlen
      _ = 30 := by rw [window0, List.length_map, List.length_range']

/-- C5 witness: searching back from 2025-07-01 over a 7-day window skips the
unresolvable June 30 and 29 and returns the June 28 rate 85 at depth 3. -/
theorem bounded_fallback_search_witness :
    CacheConsistent envA initR ∧
    pureResolve envA (mkDate 2025 7 1 - (3 : ℕ)) = some 85 ∧
    (previous_available envA initR (mkDate 2025 7 1) 7).1 = some 85 :=
  ⟨initR_consistent envA, by with_unfolding_all rfl,
    (bounded_fallback_search envA initR (mkDate 2025 7 1) 7
        (initR_consistent envA)).2.2.1 3 85 (by decide) (by decide)
      (by with_unfolding_all rfl)
      (by
        intro j h1 h2
        have hj : j = 1 ∨ j = 2 := by omega
        rcases hj with rfl | rfl
        · with_unfolding_all rfl
        · with_unfolding_all rfl)⟩

theorem mem_dayList (n : ℕ) (d : ℤ) : d ∈ dayList n ↔ 1 ≤ d ∧ d ≤ (n : ℤ) := by
  rw [dayList]
  constructor
  · intro h
    rcases List.mem_map.1 h with ⟨i, hi, rfl⟩
    rcases List.mem_range'_1.1 hi with ⟨h1, h2⟩
    omega
  · rintro ⟨h1, h2⟩
    refine List.mem_map.2 ⟨d.toNat, List.mem_range'_1.2 ⟨by omega, by omega⟩, by omega⟩

theorem getLast_cons_replicate (a : ℚ) (k : ℕ) :
    (a :: List.replicate k a).getLast (List.cons_ne_nil a (List.replicate k a)) = a := by
  have h : a :: List.replicate k a = List.replicate (k + 1) a := (List.replicate_succ a k).symm
  exact (List.getLast_congr _ (by simp) h).trans (List.getLast_replicate (by simp))

theorem foldl_min_replicate (a : ℚ) (k : ℕ) : (List.replicate k a).foldl min a = a := by
  induction k with
  | zero => rfl
  | succ k ih =>
    rw [List.replicate_succ, List.foldl_cons, min_self]
    exact ih

theorem foldl_max_replicate (a : ℚ) (k : ℕ) : (List.replicate k a).foldl max a = a := by
  induction k with
  | zero => rfl
  | succ k ih =>
    rw [List.replicate_succ, List.foldl_cons, max_self]
    exact ih

theorem trend_cons_replicate (r : ℚ) (k : ℕ) :
    calculate_trend (r :: List.replicate k r) = .flat := by
  simp only [calculate_trend]
  rw [getLast_cons_replicate r k]
  simp

/-- The head-tail decomposition of a 28-day month's day numbers. -/
theorem dayList_28 :
    dayList 28 = (1 : ℤ) :: (List.range' 2 27).map (fun i : ℕ => (i : ℤ)) := by
  rw [dayList, show (28 : ℕ) = 27 + 1 from rfl, List.range'_succ 1 27 1]
  simp

/-- C1: monthly carry-forward. In a month of 28 days at or after `MIN_YEAR`
where day 1 resolves to `r` and days 2..28 are absent (the previous-month
seed may resolve or not — no assumption is made), `calculate_monthly_stats`
returns stats with 28 counted days, average = last = min = max = `r`, zero
range and a flat trend. -/
theorem monthly_carry_forward (env : Env) (s : RState) (y m : ℤ) (r : ℚ)
    (hcc : CacheConsistent env s) (hy : MIN_YEAR ≤ y)
    (hdays : daysInMonth y m = 28)
    (h1 : pureResolve env (mkDate y m 1) = some r)
    (habs : ∀ d ∈ dayList 28, d ≠ 1 → pureResolve env (mkDate y m d) = none) :
    ∃ st : MonthlyStats, (calculate_monthly_stats env s y m).1 = some st ∧
      st.days_count = 28 ∧ st.avg_rate = r ∧ st.last_rate = r ∧
      st.min_rate = r ∧ st.max_rate = r ∧ st.range = 0 ∧ st.trend = .flat := by
  have hylt : ¬ y < MIN_YEAR := by omega
  have hstable : round4 r = r := pureResolve_stable env (mkDate y m 1) r h1
  obtain ⟨ha, hw, hc3⟩ := monthLoop_spec env y m (dayList (daysInMonth y m))
    (get_rate env s (seedDate y m)).2 (get_rate env s (seedDate y m)).1
    (get_rate_consistent env s (seedDate y m) hcc)
  have htail : ∀ d ∈ (List.range' 2 27).map (fun i : ℕ => (i : ℤ)),
      pureResolve env (mkDate y m d) = none := by
    intro d hd
    rcases List.mem_map.1 hd with ⟨i, hi, rfl⟩
    rcases List.mem_range'_1.1 hi with ⟨hi1, hi2⟩
    refine habs (i : ℤ) ?_ (by omega)
    rw [mem_dayList]
    omega
  have hlist : gatherAll (fun d => pureResolve env (mkDate y m d))
      (dayList (daysInMonth y m)) ((get_rate env s (seedDate y m)).1) =
      r :: List.replicate 27 r := by
    rw [hdays, dayList_28, gatherAll_cons]
    simp only [h1]
    rw [gatherAll_none_replicate _ _ r htail]
    simp
  rw [hlist] at ha
  have hwork : (dayList (daysInMonth y m)).filterMap (fun d => pureResolve env (mkDate y m d)) =
      [r] := by
    rw [hdays, dayList_28, List.filterMap_cons, h1]
    have : ((List.range' 2 27).map (fun i : ℕ => (i : ℤ))).filterMap
        (fun d => pureResolve env (mkDate y m d)) = [] := by
      rw [List.filterMap_eq_nil_iff]
      exact htail
    rw [this]
  rw [hwork] at hw
  have hsum : (r :: List.replicate 27 r).sum = 28 * r := by
    rw [List.sum_cons, List.sum_replicate, nsmul_eq_mul]
    push_cast
    ring
  have hlen : ((r :: List.replicate 27 r).length : ℚ) = 28 := by simp
  have havg : round4 ((r :: List.replicate 27 r).sum / ((r :: List.replicate 27 r).length : ℚ)) = r := by
    rw [hsum, hlen, show (28 : ℚ) * r / 28 = r from by field_simp]
    exact hstable
  refine ⟨{ last_rate := r, avg_rate := r, avg_workdays_rate := some r,
            min_rate := r, max_rate := r, range := 0,
            days_count := 28, workdays_count := 1, trend := .flat },
    ?_, rfl, rfl, rfl, rfl, rfl, rfl, rfl⟩
  simp only [calculate_monthly_stats, if_neg hylt]
  rw [ha, hw]
  unfold statsFrom
  simp only [Option.some.injEq, MonthlyStats.mk.injEq]
  refine ⟨getLast_cons_replicate r 27, havg, ?_, foldl_min_replicate r 27,
    foldl_max_replicate r 27, ?_, by simp, rfl, trend_cons_replicate r 27⟩
  · unfold avgWorkdays
    norm_num
    exact hstable
  · rw [foldl_min_replicate r 27, foldl_max_replicate r 27, sub_self]
    exact round4_zero

/-- Witness environment for C1: only 2026-02-01 is archived (rate 90.1234);
the clock sits outside February 2026. -/
def envB : Env :=
  { today := mkDate 2025 7 15
    fetchLive := some 80
    fetchArchive := fun d => if d = mkDate 2026 2 1 then some (901234/10000) else none
    sendOk := fun _ => true }

set_option maxRecDepth 10000 in
/-- C1 witness: February 2026 (28 days) with only day 1 resolving to
90.1234 yields 28 counted days, all aggregates equal to 90.1234, zero range
and a flat trend. -/
theorem monthly_carry_forward_witness :
    CacheConsistent envB initR ∧ daysInMonth 2026 2 = 28 ∧
    pureResolve envB (mkDate 2026 2 1) = some (901234/10000) ∧
    (∃ st : MonthlyStats, (calculate_monthly_stats envB initR 2026 2).1 = some st ∧
      st.days_count = 28 ∧ st.avg_rate = 901234/10000 ∧ st.last_rate = 901234/10000 ∧
      st.min_rate = 901234/10000 ∧ st.max_rate = 901234/10000 ∧
      st.range = 0 ∧ st.trend = .flat) :=
  ⟨initR_consistent envB, by decide, by with_unfolding_all rfl,
    monthly_carry_forward envB initR 2026 2 (901234/10000) (initR_consistent envB)
      (by decide) (by decide) (by with_unfolding_all rfl)
      (by with_unfolding_all decide)⟩

/-- Witness environment for C2's counterexample: only 2025-01-31 — the seed
day of February 2025 — is archived; no day of February resolves. -/
def envC : Env :=
  { today := mkDate 2025 7 15
    fetchLive := some 80
    fetchArchive := fun d => if d = mkDate 2025 1 31 then some 90 else none
    sendOk := fun _ => true }

set_option maxRecDepth 10000 in
/-- C2 counterexample: for February 2025, no day of the month resolves, yet
`calculate_monthly_stats` does not return Absent — the previous-month seed
(2025-01-31, rate 90) carry-fills all 28 days. -/
theorem monthly_no_day_counterexample :
    MIN_YEAR ≤ (2025 : ℤ) ∧
    (∀ d ∈ dayList (daysInMonth 2025 2), pureResolve envC (mkDate 2025 2 d) = none) ∧
    (calculate_monthly_stats envC initR 2025 2).1 =
      some { last_rate := 90, avg_rate := 90, avg_workdays_rate := none,
             min_rate := 90, max_rate := 90, range := 0,
             days_count := 28, workdays_count := 0, trend := .flat } := by
  refine ⟨by decide, by with_unfolding_all decide, by with_unfolding_all rfl⟩

/-- C2 (amended): when no day of the month resolves and the previous-month
seed does not resolve either, `calculate_monthly_stats` returns Absent. -/
theorem monthly_no_day_no_seed_absent (env : Env) (s : RState) (y m : ℤ)
    (hcc : CacheConsistent env s) (hy : MIN_YEAR ≤ y)
    (hseed : pureResolve env (seedDate y m) = none)
    (habs : ∀ d ∈ dayList (daysInMonth y m), pureResolve env (mkDate y m d) = none) :
    (calculate_monthly_stats env s y m).1 = none := by
  have hylt : ¬ y < MIN_YEAR := by omega
  have hcarry : (get_rate env s (seedDate y m)).1 = none := by
    rw [get_rate_val env s (seedDate y m) hcc]
    exact hseed
  obtain ⟨ha, _, _⟩ := monthLoop_spec env y m (dayList (daysInMonth y m))
    (get_rate env s (seedDate y m)).2 (get_rate env s (seedDate y m)).1
    (get_rate_consistent env s (seedDate y m) hcc)
  rw [hcarry] at ha
  rw [gatherAll_none_nil _ _ habs] at ha
  simp only [calculate_monthly_stats, if_neg hylt]
  rw [hcarry, ha]
  rfl

/-- C2 amended-claim witness: in `envA` neither the seed 2025-01-31 nor any
day of February 2025 resolves, and the stats are Absent. -/
theorem monthly_no_day_no_seed_absent_witness :
    CacheConsistent envA initR ∧
    pureResolve envA (seedDate 2025 2) = none ∧
    (∀ d ∈ dayList (daysInMonth 2025 2), pureResolve envA (mkDate 2025 2 d) = none) ∧
    (calculate_monthly_stats envA initR 2025 2).1 = none :=
  ⟨initR_consistent envA, by with_unfolding_all rfl, by with_unfolding_all decide,
    monthly_no_day_no_seed_absent envA initR 2025 2 (initR_consistent envA)
      (by decide) (by with_unfolding_all rfl) (by with_unfolding_all decide)⟩

/-- C10: whenever `calculate_monthly_stats` returns stats, the aggregates
are ordered (`min ≤ avg ≤ max`), the range is exactly `max - min` and
non-negative, and the workday count never exceeds the all-days count (each
resolved day enters both series, carried-forward days only the all-days
one). -/
theorem monthly_stats_invariants (env : Env) (s : RState) (y m : ℤ) (st : MonthlyStats)
    (hcc : CacheConsistent env s)
    (h : (calculate_monthly_stats env s y m).1 = some st) :
    st.min_rate ≤ st.avg_rate ∧ st.avg_rate ≤ st.max_rate ∧
    st.range = st.max_rate - st.min_rate ∧ 0 ≤ st.range ∧
    st.workdays_count ≤ st.days_count := by
  by_cases hylt : y < MIN_YEAR
  · simp only [calculate_monthly_stats, if_pos hylt] at h
    exact absurd h (by simp)
  obtain ⟨ha, hw, _⟩ := monthLoop_spec env y m (dayList (daysInMonth y m))
    (get_rate env s (seedDate y m)).2 (get_rate env s (seedDate y m)).1
    (get_rate_consistent env s (seedDate y m) hcc)
  simp only [calculate_monthly_stats, if_neg hylt] at h
  rw [ha, hw] at h
  have hcarrys : ∀ c, (get_rate env s (seedDate y m)).1 = some c → round4 c = c := by
    intro c hc
    rw [get_rate_val env s (seedDate y m) hcc] at hc
    exact pureResolve_stable env (seedDate y m) c hc
  have hgs : ∀ d v, pureResolve env (mkDate y m d) = some v → round4 v = v :=
    fun d v hv => pureResolve_stable env _ v hv
  have hstab := gatherAll_stable (fun d => pureResolve env (mkDate y m d)) hgs
    (dayList (daysInMonth y m)) ((get_rate env s (seedDate y m)).1) hcarrys
  have hcount := filterMap_length_le_gatherAll (fun d => pureResolve env (mkDate y m d))
    (dayList (daysInMonth y m)) ((get_rate env s (seedDate y m)).1)
  cases halls : gatherAll (fun d => pureResolve env (mkDate y m d))
      (dayList (daysInMonth y m)) ((get_rate env s (seedDate y m)).1) with
  | nil =>
    rw [halls] at h
    exact absurd h (by simp [statsFrom])
  | cons a rest =>
    rw [halls] at h hstab hcount
    unfold statsFrom at h
    simp only [Option.some.injEq] at h
    subst h
    have hmem_a : a ∈ a :: rest := List.mem_cons_self a rest
    have hmn_stab : round4 (rest.foldl min a) = rest.foldl min a := by
      rcases foldl_min_choice rest a with hc | hc
      · rw [hc]; exact hstab a hmem_a
      · exact hstab _ (List.mem_cons_of_mem a hc)
    have hmx_stab : round4 (rest.foldl max a) = rest.foldl max a := by
      rcases foldl_max_choice rest a with hc | hc
      · rw [hc]; exact hstab a hmem_a
      · exact hstab _ (List.mem_cons_of_mem a hc)
    have hlow : ∀ x ∈ a :: rest, rest.foldl min a ≤ x := by
      intro x hx
      rcases List.mem_cons.1 hx with rfl | hx
      · exact foldl_min_le_init rest x
      · exact foldl_min_le_mem rest a x hx
    have hhigh : ∀ x ∈ a :: rest, x ≤ rest.foldl max a := by
      intro x hx
      rcases List.mem_cons.1 hx with rfl | hx
      · exact le_foldl_max_init rest x
      · exact mem_le_foldl_max rest a x hx
    have hlen_pos : (0 : ℚ) < ((a :: rest).length : ℚ) := by
      have : 0 < (a :: rest).length := Nat.succ_pos rest.length
      exact_mod_cast this
    have hmn_le_mx : rest.foldl min a ≤ rest.foldl max a :=
      le_trans (foldl_min_le_init rest a) (le_foldl_max_init rest a)
    have hsum_low : ((a :: rest).length : ℚ) * rest.foldl min a ≤ (a :: rest).sum :=
      card_mul_le_sum (a :: rest) (rest.foldl min a) hlow
    have hsum_high : (a :: rest).sum ≤ ((a :: rest).length : ℚ) * rest.foldl max a :=
      sum_le_card_mul (a :: rest) (rest.foldl max a) hhigh
    have havg_low : rest.foldl min a ≤ (a :: rest).sum / ((a :: rest).length : ℚ) := by
      rw [le_div_iff₀ hlen_pos]
      calc rest.foldl min a * ((a :: rest).length : ℚ)
          = ((a :: rest).length : ℚ) * rest.foldl min a := by ring
        _ ≤ (a :: rest).sum := hsum_low
    have havg_high : (a :: rest).sum / ((a :: rest).length : ℚ) ≤ rest.foldl max a := by
      rw [div_le_iff₀ hlen_pos]
      calc (a :: rest).sum ≤ ((a :: rest).length : ℚ) * rest.foldl max a := hsum_high
        _ = rest.foldl max a * ((a :: rest).length : ℚ) := by ring
    refine ⟨?_, ?_, ?_, ?_, ?_⟩
    · calc rest.foldl min a = round4 (rest.foldl min a) := hmn_stab.symm
        _ ≤ round4 ((a :: rest).sum / ((a :: rest).length : ℚ)) :=
            round4_mono _ _ havg_low
    · calc round4 ((a :: rest).sum / ((a :: rest).length : ℚ))
          ≤ round4 (rest.foldl max a) := round4_mono _ _ havg_high
        _ = rest.foldl max a := hmx_stab
    · exact round4_sub_stable _ _ hmx_stab hmn_stab
    · rw [round4_sub_stable _ _ hmx_stab hmn_stab]
      exact sub_nonneg.2 hmn_le_mx
    · simpa using hcount

set_option maxRecDepth 10000 in
/-- C10 witness: the February 2025 stats of `envC` (all days carry-filled
from the seed) satisfy every invariant. -/
theorem monthly_stats_invariants_witness :
    (calculate_monthly_stats envC initR 2025 2).1 =
      some { last_rate := 90, avg_rate := 90, avg_workdays_rate := none,
             min_rate := 90, max_rate := 90, range := 0,
             days_count := 28, workdays_count := 0, trend := .flat } ∧
    ({ last_rate := 90, avg_rate := 90, avg_workdays_rate := none,
       min_rate := 90, max_rate := 90, range := 0,
       days_count := 28, workdays_count := 0, trend := .flat } : MonthlyStats).min_rate ≤
      ({ last_rate := 90, avg_rate := 90, avg_workdays_rate := none,
         min_rate := 90, max_rate := 90, range := 0,
         days_count := 28, workdays_count := 0, trend := .flat } : MonthlyStats).avg_rate :=
  ⟨by with_unfolding_all rfl,
    (monthly_stats_invariants envC initR 2025 2 _ (initR_consistent envC)
      (by with_unfolding_all rfl)).1⟩

theorem send_to_chat_slot (env : Env) (st : SvcState) (msg : Msg) :
    (send_to_chat env st msg).2.slot = st.slot := rfl

end VkTeamsBot
